import Mathlib

/-!
Verification of the Verilator DFG (data-flow graph) core, `src/V3Dfg.h`.

The development shallowly embeds the data model and the operations of the
DFG layer.  Definitions whose C++ bodies appear in `V3Dfg.h` are translated
directly from that header.  Several methods are only declared in the header
(their bodies live in `V3Dfg.cpp`, which is not part of the sources here);
those are modelled from the specification text and are marked
`Modelled from the spec:` in their doc comments.
-/

namespace V3Dfg

/-! ## DfgVar retention (`DfgVar::keep`) -/

/-- Global options relevant to `DfgVar::keep` (`v3Global.opt.trace()`). -/
structure GlobalOpt where
  trace : Bool
deriving DecidableEq, Repr

/-- The external `AstVar` data consulted by `DfgVar::keep`
(`varp()->isTrace()`, `varp()->isSigPublic()`). -/
structure AstVar where
  isTrace : Bool
  isSigPublic : Bool
deriving DecidableEq, Repr

/-- The flag state of a `DfgVar` vertex (`m_hasModRefs`, `m_hasExtRefs`)
together with its associated `AstVar`. -/
structure DfgVar where
  hasModRefs : Bool
  hasExtRefs : Bool
  varp : AstVar
deriving DecidableEq, Repr

/-- `DfgVar::hasRefs`: `m_hasModRefs || m_hasExtRefs`. -/
def DfgVar.hasRefs (v : DfgVar) : Bool :=
  v.hasModRefs || v.hasExtRefs

/-- `DfgVar::keep`, translated from `V3Dfg.h` lines 542-551:
keep if referenced outside this module (`hasExtRefs`), or traced
(`v3Global.opt.trace() && varp()->isTrace()`), or public
(`varp()->isSigPublic()`); otherwise removable. -/
def DfgVar.keep (opt : GlobalOpt) (v : DfgVar) : Bool :=
  if v.hasExtRefs then true
  else if opt.trace && v.varp.isTrace then true
  else if v.varp.isSigPublic then true
  else false

/-! ## Sink lists (`hasSinks`, `hasMultipleSinks`, `fanout`) -/

/-- A vertex viewed through its intrusive sink-edge list `m_sinksp`;
the list elements stand for the `DfgEdge` nodes, identified by their
sink vertex id. -/
structure VertexSinks where
  sinks : List Nat
deriving DecidableEq, Repr

/-- `DfgVertex::hasSinks`: `m_sinksp != nullptr`. -/
def VertexSinks.hasSinks (v : VertexSinks) : Bool :=
  !v.sinks.isEmpty

/-- `DfgVertex::hasMultipleSinks`: `m_sinksp && m_sinksp->m_nextp`. -/
def VertexSinks.hasMultipleSinks (v : VertexSinks) : Bool :=
  match v.sinks with
  | _ :: _ :: _ => true
  | _ => false

/-- `DfgVertex::fanout`. Modelled from the spec: the body is in the missing
`V3Dfg.cpp`; per the spec, "`fanout()`: number of sink edges". -/
def VertexSinks.fanout (v : VertexSinks) : Nat :=
  v.sinks.length

/-! ## Vertices with their upstream logic cones

`DfgVertex::equals` and `DfgVertex::hash` recurse through all upstream
vertices feeding the vertex, so a vertex is embedded together with its
upstream cone.  The three kinds mirror the class hierarchy of `V3Dfg.h`:
`DfgVar` (arity 1, its driver possibly unconnected), `DfgConst` (arity 0,
owns a literal value) and the astgen-generated operator classes
(`DfgVertexWithArity`, each source slot possibly unconnected). -/

mutual

/-- A `DfgVertex` together with its upstream cone. -/
inductive DfgVertex where
  | var (varId : Nat) (driver : OptVertex)
  | const (width : Nat) (val : Nat)
  | oper (tag : Nat) (srcs : SrcList)

/-- A source-edge slot: its `m_sourcep`, null when unconnected. -/
inductive OptVertex where
  | none
  | some (v : DfgVertex)

/-- The fixed array of source-edge slots of a vertex. -/
inductive SrcList where
  | nil
  | cons (hd : OptVertex) (tl : SrcList)

end

mutual

/-- `DfgVertex::equals`. Modelled from the spec: the body is in the missing
`V3Dfg.cpp`; per the spec, two vertices are equal iff (a) same kind tag,
(b) `selfEquals` — kind-specific comparison of local data only (a
variable-reference vertex compares the underlying storage handle identity;
a constant vertex compares the literal value bit-for-bit), and (c) for
every source index the source vertices are recursively equal, treating
"both null" as equal and "one null one non-null" as unequal. -/
def DfgVertex.equals : DfgVertex → DfgVertex → Bool
  | .var i d, .var j e => (i == j) && OptVertex.equals d e
  | .const w x, .const w' y => (w == w') && (x == y)
  | .oper t s, .oper t' s' => (t == t') && SrcList.equals s s'
  | _, _ => false

/-- Recursive equality of one source slot (both-null equal, one-null unequal). -/
def OptVertex.equals : OptVertex → OptVertex → Bool
  | .none, .none => true
  | .some u, .some v => DfgVertex.equals u v
  | _, _ => false

/-- Recursive equality of the source slots, index by index. -/
def SrcList.equals : SrcList → SrcList → Bool
  | .nil, .nil => true
  | .cons h t, .cons h' t' => OptVertex.equals h h' && SrcList.equals t t'
  | _, _ => false

end

/-- The hash combinator standing for `V3Hash` accumulation. -/
def hashCombine (a b : Nat) : Nat := a * 1000003 + b

mutual

/-- `DfgVertex::hash`. Modelled from the spec: the body is in the missing
`V3Dfg.cpp`; per the spec, a structural hash combining the kind tag,
`selfHash` of the local data, and the hashes of all sources in order. -/
def DfgVertex.hash : DfgVertex → Nat
  | .var i d => hashCombine 1 (hashCombine i (OptVertex.hash d))
  | .const w x => hashCombine 2 (hashCombine w x)
  | .oper t s => hashCombine 3 (hashCombine t (SrcList.hash s))

/-- Hash of one source slot. -/
def OptVertex.hash : OptVertex → Nat
  | .none => 0
  | .some v => hashCombine 4 (DfgVertex.hash v)

/-- Hash of the source slots, in order. -/
def SrcList.hash : SrcList → Nat
  | .nil => 5
  | .cons h t => hashCombine (OptVertex.hash h) (SrcList.hash t)

end


/-- A small subgraph: an operator fed by a constant and an undriven variable. -/
def subgraphA : DfgVertex :=
  .oper 3 (.cons (.some (.const 8 1)) (.cons (.some (.var 5 .none)) .nil))

/-- A structurally identical subgraph built independently of `subgraphA`. -/
def subgraphB : DfgVertex :=
  .oper 3 (.cons (.some (.const 8 1)) (.cons (.some (.var 5 .none)) .nil))

/-! ## `isZero` / `isOnes` -/

/-- `V3Number::isEqZero`. Modelled from the spec: `V3Number` is external;
the literal value is all zeroes. -/
def isEqZero (val : Nat) : Bool := val == 0

/-- `V3Number::isEqAllOnes`. Modelled from the spec: `V3Number` is external;
the literal value is all ones for the given width. -/
def isEqAllOnes (val width : Nat) : Bool := val == 2 ^ width - 1

/-- `DfgVertex::isZero` (header lines 716-719): cast to `DfgConst` and use
`DfgConst::isZero` (`num().isEqZero()`, line 580); false for any other kind. -/
def DfgVertex.isZero : DfgVertex → Bool
  | .const _ val => isEqZero val
  | _ => false

/-- `DfgVertex::isOnes` (header lines 721-724): cast to `DfgConst` and use
`DfgConst::isOnes` (`num().isEqAllOnes(width())`, line 581); false for any
other kind. -/
def DfgVertex.isOnes : DfgVertex → Bool
  | .const w val => isEqAllOnes val w
  | _ => false

/-! ## Type identity (`is` / `as` / `cast`) -/

/-- The `DfgType` (`VNType`) kind tag stored in `DfgVertex::m_type`. -/
inductive DfgType where
  | atVar
  | atConst
  | atOper (n : Nat)
deriving DecidableEq, Repr

/-- The tag a vertex was constructed with (`T::dfgType()` of its class). -/
def DfgVertex.dfgTypeOf : DfgVertex → DfgType
  | .var .. => .atVar
  | .const .. => .atConst
  | .oper t _ => .atOper t

/-- `DfgVertex::is<T>`: `m_type == T::dfgType()` (header line 364-368). -/
def DfgVertex.isOfType (v : DfgVertex) (t : DfgType) : Bool :=
  v.dfgTypeOf == t

/-- `DfgVertex::as<T>` (header lines 371-384): `UASSERT_OBJ(is<T>(), ...)`
aborts fatally with a diagnostic when the tag does not match, else casts.
The fatal abort is modelled as `Except.error` carrying the diagnostic. -/
def DfgVertex.asOfType (v : DfgVertex) (t : DfgType) : Except String DfgVertex :=
  if v.isOfType t then .ok v
  else .error "DfgVertex is not of expected type"

/-- `DfgVertex::cast<T>` (header lines 387-394): `is<T>() ? cast : nullptr`. -/
def DfgVertex.castOfType (v : DfgVertex) (t : DfgType) : Option DfgVertex :=
  if v.isOfType t then some v else none

/-! ## Edges, `replaceWith`, and `fanout` over a whole graph

A graph-level view for the edge-rewiring operations: vertices are
identified by `Nat` ids and the edges of the graph are collected in one
list, each recording its nullable source (`m_sourcep`), its immutable sink
(`m_sinkp`) and the operand slot index it occupies in the sink. -/

/-- A `DfgEdge`: nullable mutable source, immutable sink and slot. -/
structure DfgEdge where
  sourcep : Option Nat
  sinkp : Nat
  slot : Nat
deriving DecidableEq, Repr

/-- `DfgVertex::fanout` over the graph-level edge list: the number of edges
whose source is the given vertex (its sink edges).  Modelled from the spec:
the body is in the missing `V3Dfg.cpp`; per the spec, "number of sink
edges". -/
def fanout (es : List DfgEdge) (u : Nat) : Nat :=
  (es.filter (fun e => e.sourcep == Option.some u)).length

/-- `DfgVertex::replaceWith`. Modelled from the spec: the body is in the
missing `V3Dfg.cpp`; per the spec, "relinks every current sink edge of this
vertex to instead source from `newSource`, leaving this vertex with zero
sinks".  Every edge sourced by `u` is relinked to be sourced by `v`. -/
def replaceWith (es : List DfgEdge) (u v : Nat) : List DfgEdge :=
  es.map (fun e => if e.sourcep == Option.some u then { e with sourcep := some v } else e)

/-! ## `runToFixedPoint` -/

/-- A graph state for `runToFixedPoint`: the vertex list plus the edges. -/
structure MGraph where
  vertices : List Nat
  edges : List DfgEdge
deriving DecidableEq, Repr

/-- One full pass of `runToFixedPoint`: apply `f` to every vertex in list
order, threading the graph through and OR-ing the per-vertex "changed"
reports.  Modelled from the spec: the body is in the missing `V3Dfg.cpp`;
per the header comment, "Apply the given function to all vertices in the
graph.  The function return value indicates that a change has been made". -/
def pass (f : Nat → MGraph → Bool × MGraph) (g : MGraph) : Bool × MGraph :=
  g.vertices.foldl (fun acc v => let r := f v acc.2; (acc.1 || r.1, r.2)) (false, g)

/-- `DfgGraph::runToFixedPoint`. Modelled from the spec: the body is in the
missing `V3Dfg.cpp`; per the header comment, "Repeat until no changes
reported".  Termination is the caller's responsibility, so the model takes
a fuel bound on the number of passes; the result carries the number of full
passes made over the vertices together with the final graph. -/
def runToFixedPoint (f : Nat → MGraph → Bool × MGraph) : Nat → MGraph → Nat × MGraph
  | 0, g => (0, g)
  | fuel + 1, g =>
    let r := pass f g
    if r.1 then
      let rest := runToFixedPoint f fuel r.2
      (rest.1 + 1, rest.2)
    else (1, r.2)

/-! ## Data types (`isSupportedDType` / `dtypeFor`) -/

/-- The `AstBasicDType` keywords (`VBasicDTypeKwd`), reduced to what
distinguishes `isIntNumeric`. -/
inductive BasicKeyword where
  | logic
  | bit
  | byte
  | int
  | integer
  | real
  | string
  | event
deriving DecidableEq, Repr

/-- `VBasicDTypeKwd::isIntNumeric`. Modelled from the spec: `V3Ast.h` is
external; true exactly for the fixed-width packed integral numeric
keywords, false for non-numeric/non-packed ones. -/
def BasicKeyword.isIntNumeric : BasicKeyword → Bool
  | .real | .string | .event => false
  | _ => true

/-- The `AstNodeDType` kinds relevant to `isSupportedDType`: basic types,
packed arrays, type references (what `skipRefp` skips), and the remaining
unsupported kinds (unpacked arrays, structs, ...). -/
inductive AstNodeDType where
  | basicDType (keyword : BasicKeyword) (width : Nat)
  | packArrayDType (sub : AstNodeDType) (elements : Nat)
  | refDType (sub : AstNodeDType)
  | unpackArrayDType (sub : AstNodeDType) (elements : Nat)
  | structDType
deriving DecidableEq, Repr

/-- `AstNodeDType::skipRefp`: skip type references to the referenced type. -/
def AstNodeDType.skipRefp : AstNodeDType → AstNodeDType
  | .refDType sub => sub.skipRefp
  | t => t

/-- `DfgVertex::isSupportedDType` (header lines 222-232): skip type
references, then: a basic type is supported iff its keyword
`isIntNumeric()`; a packed array is supported iff its subtype is; every
other kind is unsupported.  The `skipRefp` call is inlined as the
`refDType` recursion case so the definition is structurally recursive;
`isSupportedDType_matches_header` below re-states it in the header's
skip-then-dispatch shape. -/
def AstNodeDType.isSupportedDType : AstNodeDType → Bool
  | .refDType sub => sub.isSupportedDType
  | .basicDType kw _ => kw.isIntNumeric
  | .packArrayDType sub _ => sub.isSupportedDType
  | _ => false

/-- `DfgVertex::dtypeForWidth` (header lines 237-239). Modelled from the
spec for the external type table: all packed types of a given width share
one canonical unsigned logic type of that width. -/
def dtypeForWidth (width : Nat) : AstNodeDType :=
  .basicDType .logic width

/-- An external `AstNode` as seen by `dtypeFor`: its declared type and its
total bit width. -/
structure AstNode where
  dtypep : AstNodeDType
  width : Nat
deriving DecidableEq, Repr

/-- `DfgVertex::dtypeFor` (header lines 242-246): the canonical type for
the node's total width (the debug-only assert requires the node's declared
type to be supported). -/
def dtypeFor (n : AstNode) : AstNodeDType :=
  dtypeForWidth n.width

/-- The representable types as worded by the spec ("only fixed-width packed
numeric/array-of-numeric types qualify"): packed numeric basic types and
packed arrays, possibly nested, of such types, with type references
skipped anywhere. -/
inductive SupportedSpec : AstNodeDType → Prop
  | basic {kw : BasicKeyword} {w : Nat} :
      kw.isIntNumeric = true → SupportedSpec (.basicDType kw w)
  | pack {t : AstNodeDType} {n : Nat} :
      SupportedSpec t → SupportedSpec (.packArrayDType t n)
  | ref {t : AstNodeDType} :
      SupportedSpec t → SupportedSpec (.refDType t)

/-! ## Topological sorting (`DfgGraph::sortTopologically`) -/

/-- A `DfgGraph` viewed for vertex ordering: the ordered `m_vertices` list
(vertex ids) together with the directed edges (source, sink) induced by the
connected source slots of its vertices. -/
structure TGraph where
  vertices : List Nat
  edges : List (Nat × Nat)
deriving DecidableEq, Repr

/-- Well-formedness of the graph view: the vertex list has no duplicates
(each vertex is in the graph once) and every edge runs between vertices of
the graph. -/
def TGraph.WF (g : TGraph) : Prop :=
  g.vertices.Nodup ∧ ∀ e ∈ g.edges, e.1 ∈ g.vertices ∧ e.2 ∈ g.vertices

/-- A vertex is ready to be emitted when no edge whose source is still
unemitted targets it. -/
def ready (edges : List (Nat × Nat)) (remaining : List Nat) (v : Nat) : Bool :=
  edges.all (fun e => e.2 != v || !(remaining.contains e.1))

/-- Kahn-style scheduling core of `sortTopologically`.  Modelled from the
spec: the body is in the missing `V3Dfg.cpp`; per the header comment and
spec 4.1, a Kahn-style algorithm repeatedly emits — deterministically, by
prior list order — a vertex all of whose predecessors are already emitted;
if no vertex is ready while some remain, the graph is cyclic and `none` is
returned.  The fuel argument bounds the recursion and is instantiated with
the vertex count. -/
def topoAux (edges : List (Nat × Nat)) : Nat → List Nat → Option (List Nat)
  | 0, remaining => if remaining.isEmpty then some [] else none
  | fuel + 1, remaining =>
    if remaining.isEmpty then some []
    else
      match remaining.find? (ready edges remaining) with
      | Option.none => none
      | Option.some v =>
        (topoAux edges fuel (remaining.erase v)).map (fun l => v :: l)

/-- `DfgGraph::sortTopologically`.  Modelled from the spec: the body is in
the missing `V3Dfg.cpp`; per the header comment, sorts the vertex list
topologically (reverse topologically when the flag is set), returns true on
success, and returns false leaving the vertex ordering unmodified when the
graph is cyclic. -/
def TGraph.sortTopologically (g : TGraph) (reverse : Bool) : Bool × TGraph :=
  match topoAux g.edges g.vertices.length g.vertices with
  | Option.some ord => (true, TGraph.mk (if reverse then ord.reverse else ord) g.edges)
  | Option.none => (false, g)

/-- A nonempty directed path along the edge list. -/
inductive EPath (es : List (Nat × Nat)) : Nat → Nat → Prop
  | single {u v : Nat} : (u, v) ∈ es → EPath es u v
  | cons {u w v : Nat} : (u, w) ∈ es → EPath es w v → EPath es u v

/-- The graph has no directed cycle: no vertex has a nonempty directed
path back to itself. -/
def TGraph.Acyclic (g : TGraph) : Prop :=
  ∀ v : Nat, ¬ EPath g.edges v v

/-- Consecutive elements of the list are edges. -/
def isChain (es : List (Nat × Nat)) : List Nat → Prop
  | a :: b :: rest => (a, b) ∈ es ∧ isChain es (b :: rest)
  | _ => True

/-! ## Connected components (`DfgGraph::splitIntoComponents`) -/

/-- Undirected adjacency: some edge connects `u` and `v`, in either
direction. -/
def adj (es : List (Nat × Nat)) (u v : Nat) : Bool :=
  es.any (fun e => (e.1 == u && e.2 == v) || (e.1 == v && e.2 == u))

/-- The frontier of a flood fill: vertices of the graph not yet in the
component but adjacent to some vertex of it. -/
def growNew (es : List (Nat × Nat)) (vs comp : List Nat) : List Nat :=
  vs.filter (fun v => !comp.contains v && comp.any (fun u => adj es u v))

/-- One flood-fill step: adjoin the frontier. -/
def grow (es : List (Nat × Nat)) (vs comp : List Nat) : List Nat :=
  comp ++ growNew es vs comp

/-- Iterated flood fill. -/
def closeComp (es : List (Nat × Nat)) (vs : List Nat) : Nat → List Nat → List Nat
  | 0, comp => comp
  | n + 1, comp => closeComp es vs n (grow es vs comp)

/-- The connected component of seed `v`: flood fill to saturation (the
vertex count bounds the number of useful steps). -/
def componentOf (es : List (Nat × Nat)) (vs : List Nat) (v : Nat) : List Nat :=
  closeComp es vs vs.length [v]

/-- Walk the vertex list in order and emit the component of every vertex
not contained in an already-emitted component. -/
def splitAux (es : List (Nat × Nat)) (vs : List Nat) :
    List Nat → List Nat → List (List Nat)
  | [], _ => []
  | v :: rest, assigned =>
    if assigned.contains v then splitAux es vs rest assigned
    else componentOf es vs v :: splitAux es vs rest (assigned ++ componentOf es vs v)

/-- `DfgGraph::splitIntoComponents`.  Modelled from the spec: the body is
in the missing `V3Dfg.cpp`; per the header comment and spec 4.1, splits the
graph into its maximal connected components under the undirected view of
the edge relation via iterative flood fill, each component becoming a new
graph that takes ownership of its vertices (and of the edges among them),
leaving the original graph empty. -/
def TGraph.splitIntoComponents (g : TGraph) : List TGraph × TGraph :=
  ((splitAux g.edges g.vertices g.vertices []).map
      (fun c => TGraph.mk c (g.edges.filter (fun e => c.contains e.1))),
    TGraph.mk [] [])

/-- Undirected connectivity: the reflexive-transitive closure of `adj`. -/
inductive Conn (es : List (Nat × Nat)) : Nat → Nat → Prop
  | refl (v : Nat) : Conn es v v
  | tail {u w v : Nat} : Conn es u w → adj es w v = true → Conn es u v

/-- The component is saturated: the flood-fill frontier is empty. -/
def Stable (es : List (Nat × Nat)) (vs comp : List Nat) : Prop :=
  growNew es vs comp = []

end V3Dfg

namespace V3Dfg

/-! ## Claim theorems -/

mutual

theorem vertex_equals_refl : ∀ u : DfgVertex, DfgVertex.equals u u = true
  | .var i d => by simp [DfgVertex.equals, slot_equals_refl d]
  | .const w x => by simp [DfgVertex.equals]
  | .oper t s => by simp [DfgVertex.equals, srcs_equals_refl s]

theorem slot_equals_refl : ∀ d : OptVertex, OptVertex.equals d d = true
  | .none => by simp [OptVertex.equals]
  | .some v => by simp [OptVertex.equals, vertex_equals_refl v]

theorem srcs_equals_refl : ∀ s : SrcList, SrcList.equals s s = true
  | .nil => by simp [SrcList.equals]
  | .cons h t => by simp [SrcList.equals, slot_equals_refl h, srcs_equals_refl t]

end

theorem natBeq_comm (a b : Nat) : (a == b) = (b == a) := by
  cases h : a == b <;> cases h' : b == a <;> simp_all

mutual

theorem vertex_equals_symm : ∀ u v : DfgVertex, DfgVertex.equals u v = DfgVertex.equals v u
  | .var i d, .var j e => by
      simp only [DfgVertex.equals, slot_equals_symm d e, natBeq_comm i j]
  | .const w x, .const w' y => by
      simp only [DfgVertex.equals, natBeq_comm w w', natBeq_comm x y]
  | .oper t s, .oper t' s' => by
      simp only [DfgVertex.equals, srcs_equals_symm s s', natBeq_comm t t']
  | .var _ _, .const _ _ => by simp [DfgVertex.equals]
  | .var _ _, .oper _ _ => by simp [DfgVertex.equals]
  | .const _ _, .var _ _ => by simp [DfgVertex.equals]
  | .const _ _, .oper _ _ => by simp [DfgVertex.equals]
  | .oper _ _, .var _ _ => by simp [DfgVertex.equals]
  | .oper _ _, .const _ _ => by simp [DfgVertex.equals]

theorem slot_equals_symm : ∀ d e : OptVertex, OptVertex.equals d e = OptVertex.equals e d
  | .none, .none => by simp [OptVertex.equals]
  | .some u, .some v => by simp only [OptVertex.equals, vertex_equals_symm u v]
  | .none, .some _ => by simp [OptVertex.equals]
  | .some _, .none => by simp [OptVertex.equals]

theorem srcs_equals_symm : ∀ s s' : SrcList, SrcList.equals s s' = SrcList.equals s' s
  | .nil, .nil => by simp [SrcList.equals]
  | .cons h t, .cons h' t' => by
      simp only [SrcList.equals, slot_equals_symm h h', srcs_equals_symm t t']
  | .nil, .cons _ _ => by simp [SrcList.equals]
  | .cons _ _, .nil => by simp [SrcList.equals]

end

mutual

theorem vertex_hash_congr :
    ∀ u v : DfgVertex, DfgVertex.equals u v = true → DfgVertex.hash u = DfgVertex.hash v
  | .var i d, .var j e, h => by
      simp only [DfgVertex.equals, Bool.and_eq_true, beq_iff_eq] at h
      simp [DfgVertex.hash, h.1, slot_hash_congr d e h.2]
  | .const w x, .const w' y, h => by
      simp only [DfgVertex.equals, Bool.and_eq_true, beq_iff_eq] at h
      simp [DfgVertex.hash, h.1, h.2]
  | .oper t s, .oper t' s', h => by
      simp only [DfgVertex.equals, Bool.and_eq_true, beq_iff_eq] at h
      simp [DfgVertex.hash, h.1, srcs_hash_congr s s' h.2]

theorem slot_hash_congr :
    ∀ d e : OptVertex, OptVertex.equals d e = true → OptVertex.hash d = OptVertex.hash e
  | .none, .none, _ => rfl
  | .some u, .some v, h => by
      simp only [OptVertex.equals] at h
      simp [OptVertex.hash, vertex_hash_congr u v h]

theorem srcs_hash_congr :
    ∀ s s' : SrcList, SrcList.equals s s' = true → SrcList.hash s = SrcList.hash s'
  | .nil, .nil, _ => rfl
  | .cons h t, .cons h' t', he => by
      simp only [SrcList.equals, Bool.and_eq_true] at he
      simp [SrcList.hash, slot_hash_congr h h' he.1, srcs_hash_congr t t' he.2]

end

/-- C1. The claim states `DfgVar::keep` returns true whenever either
reference flag (`hasModRefs` or `hasExtRefs`) is set.  This is false:
the code checks only `hasExtRefs`.  Counterexample: a variable with
`hasModRefs` set, `hasExtRefs` clear, untraced and non-public is not kept. -/
theorem keep_ignores_hasModRefs :
    (DfgVar.mk true false (AstVar.mk false false)).hasModRefs = true ∧
    DfgVar.keep (GlobalOpt.mk true) (DfgVar.mk true false (AstVar.mk false false)) = false := by
  decide

/-- C1 (amended). `DfgVar::keep` returns true exactly when `hasExtRefs` is
set, or tracing is enabled and the variable is traced, or the variable is
public; `hasModRefs` alone does not force retention. -/
theorem keep_iff (opt : GlobalOpt) (v : DfgVar) :
    v.keep opt = (v.hasExtRefs || (opt.trace && v.varp.isTrace) || v.varp.isSigPublic) := by
  unfold DfgVar.keep
  cases h1 : v.hasExtRefs <;> cases h2 : opt.trace <;> cases h3 : v.varp.isTrace <;>
    cases h4 : v.varp.isSigPublic <;> simp

/-- C3. Structural equality is reflexive and symmetric, holds for
structurally identical subgraphs built independently (`subgraphA`,
`subgraphB`), and implies hash agreement. -/
theorem equals_hash_spec :
    (∀ u : DfgVertex, DfgVertex.equals u u = true) ∧
    (∀ u v : DfgVertex, DfgVertex.equals u v = DfgVertex.equals v u) ∧
    DfgVertex.equals subgraphA subgraphB = true ∧
    (∀ u v : DfgVertex,
      DfgVertex.equals u v = true → DfgVertex.hash u = DfgVertex.hash v) := by
  refine ⟨vertex_equals_refl, vertex_equals_symm, ?_, vertex_hash_congr⟩
  decide

/-- C3 witness: the hash-agreement part applied at the two concrete
independently built subgraphs. -/
theorem equals_hash_spec_witness :
    DfgVertex.hash subgraphA = DfgVertex.hash subgraphB :=
  equals_hash_spec.2.2.2 subgraphA subgraphB (by decide)

/-- C7. `isZero` (resp. `isOnes`) is true only on constant vertices whose
value is all zeroes (resp. all ones for the width); false on every
non-constant vertex; and the concrete width-8 round-trips hold. -/
theorem isZero_isOnes_spec :
    (∀ i d, DfgVertex.isZero (.var i d) = false ∧ DfgVertex.isOnes (.var i d) = false) ∧
    (∀ t s, DfgVertex.isZero (.oper t s) = false ∧ DfgVertex.isOnes (.oper t s) = false) ∧
    (∀ w val, DfgVertex.isZero (.const w val) = (val == 0)) ∧
    (∀ w val, DfgVertex.isOnes (.const w val) = (val == 2 ^ w - 1)) ∧
    (DfgVertex.isZero (.const 8 0) = true ∧ DfgVertex.isOnes (.const 8 0) = false) ∧
    (DfgVertex.isZero (.const 8 0xFF) = false ∧ DfgVertex.isOnes (.const 8 0xFF) = true) := by
  refine ⟨fun i d => ⟨rfl, rfl⟩, fun t s => ⟨rfl, rfl⟩,
    fun w val => rfl, fun w val => rfl, by decide, by decide⟩

/-- C9. `is<T>` is a pure comparison of the vertex's kind tag against `T`'s
tag; `as<T>` fails fatally exactly when the tag does not match and
otherwise returns the vertex; `cast<T>` returns null instead of failing. -/
theorem is_as_cast_spec :
    (∀ (v : DfgVertex) (t : DfgType), v.isOfType t = (v.dfgTypeOf == t)) ∧
    (∀ (v : DfgVertex) (t : DfgType), v.isOfType t = true →
      v.asOfType t = .ok v ∧ v.castOfType t = some v) ∧
    (∀ (v : DfgVertex) (t : DfgType), v.isOfType t = false →
      v.asOfType t = .error "DfgVertex is not of expected type" ∧ v.castOfType t = none) := by
  refine ⟨fun v t => rfl, fun v t h => ?_, fun v t h => ?_⟩
  · constructor <;> simp [DfgVertex.asOfType, DfgVertex.castOfType, h]
  · constructor <;> simp [DfgVertex.asOfType, DfgVertex.castOfType, h]

/-- C9 witness: at a concrete constant vertex, `as`/`cast` succeed on the
matching tag and fail on a mismatched tag. -/
theorem is_as_cast_spec_witness :
    ((DfgVertex.const 8 0).asOfType .atConst = .ok (DfgVertex.const 8 0) ∧
      (DfgVertex.const 8 0).castOfType .atConst = some (DfgVertex.const 8 0)) ∧
    ((DfgVertex.const 8 0).asOfType .atVar = .error "DfgVertex is not of expected type" ∧
      (DfgVertex.const 8 0).castOfType .atVar = none) :=
  ⟨is_as_cast_spec.2.1 (DfgVertex.const 8 0) .atConst (by decide),
    is_as_cast_spec.2.2 (DfgVertex.const 8 0) .atVar (by decide)⟩

/-- C5. The claim quantifies over every vertex `v`, but for `v = u` the
relinking leaves the sink edges of `u` sourced by `u` itself, so
`u.fanout()` is not `0` afterwards.  Concretely: one edge sourced by
vertex `0`, and `replaceWith` of `0` by `0` leaves `fanout = 1`. -/
theorem replaceWith_self_counterexample :
    fanout [DfgEdge.mk (some 0) 1 0] 0 = 1 ∧
    fanout (replaceWith [DfgEdge.mk (some 0) 1 0] 0 0) 0 = 1 := by
  decide

/-- C5 (amended). For every vertex `u` and every vertex `v` distinct from
`u`, after `u.replaceWith(v)`: `u.fanout() = 0`, every edge that previously
had source `u` now has source `v` (same sink, same slot), and the total
number of edges is unchanged. -/
theorem replaceWith_spec (es : List DfgEdge) (u v : Nat) (huv : u ≠ v) :
    fanout (replaceWith es u v) u = 0 ∧
    (replaceWith es u v).length = es.length ∧
    (∀ (i : Nat), ∀ e : DfgEdge, es[i]? = some e → e.sourcep = some u →
      (replaceWith es u v)[i]? = some { e with sourcep := some v }) := by
  refine ⟨?_, by simp [replaceWith], ?_⟩
  · have hall : ∀ e' ∈ replaceWith es u v, ¬((e'.sourcep == Option.some u) = true) := by
      intro e' he'
      simp only [replaceWith, List.mem_map] at he'
      obtain ⟨e, _, rfl⟩ := he'
      by_cases h : e.sourcep = some u
      · simp only [h, beq_self_eq_true, if_true, beq_iff_eq, Option.some.injEq]
        exact fun hvu => huv hvu.symm
      · have hb : (e.sourcep == Option.some u) = false := by
          simpa using h
        simp [hb]
    unfold fanout
    rw [List.filter_eq_nil_iff.mpr hall]
    rfl
  · intro i e hi he
    simp only [replaceWith, List.getElem?_map, hi, Option.map_some]
    simp [he]

/-- C5 witness: a two-edge graph where vertex `0` drives both edges;
replacing `0` with `2` empties its fanout and rewires both edges. -/
theorem replaceWith_spec_witness :
    fanout (replaceWith [DfgEdge.mk (some 0) 1 0, DfgEdge.mk (some 0) 3 1] 0 2) 0 = 0 ∧
    (replaceWith [DfgEdge.mk (some 0) 1 0, DfgEdge.mk (some 0) 3 1] 0 2).length =
      [DfgEdge.mk (some 0) 1 0, DfgEdge.mk (some 0) 3 1].length ∧
    (∀ (i : Nat), ∀ e : DfgEdge,
      [DfgEdge.mk (some 0) 1 0, DfgEdge.mk (some 0) 3 1][i]? = some e →
      e.sourcep = some 0 →
      (replaceWith [DfgEdge.mk (some 0) 1 0, DfgEdge.mk (some 0) 3 1] 0 2)[i]? =
        some { e with sourcep := some 2 }) :=
  replaceWith_spec [DfgEdge.mk (some 0) 1 0, DfgEdge.mk (some 0) 3 1] 0 2 (by decide)

/-- C6. `runToFixedPoint`, given a rewrite function that reports "no
change" (and hence makes none) on every vertex, makes exactly one full
pass and leaves the graph unmodified. -/
theorem runToFixedPoint_noChange (f : Nat → MGraph → Bool × MGraph)
    (hf : ∀ v g, f v g = (false, g)) (fuel : Nat) (g : MGraph) :
    runToFixedPoint f (fuel + 1) g = (1, g) := by
  have hfold : ∀ (l : List Nat) (b : Bool) (g' : MGraph),
      l.foldl (fun acc v => let r := f v acc.2; (acc.1 || r.1, r.2)) (b, g') = (b, g') := by
    intro l
    induction l with
    | nil => intro b g'; rfl
    | cons v t ih =>
      intro b g'
      simp only [List.foldl_cons, hf v g']
      simpa using ih b g'
  have hpass : pass f g = (false, g) := hfold g.vertices false g
  simp [runToFixedPoint, hpass]

/-- C6 witness: the identity rewrite on a concrete two-vertex graph stops
after one pass with the graph unchanged. -/
theorem runToFixedPoint_noChange_witness :
    runToFixedPoint (fun _ g => (false, g)) 4 (MGraph.mk [0, 1] []) =
      (1, MGraph.mk [0, 1] []) :=
  runToFixedPoint_noChange (fun _ g => (false, g)) (fun _ _ => rfl) 3 (MGraph.mk [0, 1] [])

/-- `isSupportedDType` agrees with the header's literal shape: first
`skipRefp`, then dispatch on the skipped type. -/
theorem isSupportedDType_matches_header (t : AstNodeDType) :
    t.isSupportedDType =
      (match t.skipRefp with
        | .basicDType kw _ => kw.isIntNumeric
        | .packArrayDType sub _ => sub.isSupportedDType
        | _ => false) := by
  induction t with
  | basicDType kw w => rfl
  | packArrayDType sub n ih => rfl
  | refDType sub ih => simpa [AstNodeDType.isSupportedDType, AstNodeDType.skipRefp] using ih
  | unpackArrayDType sub n ih => rfl
  | structDType => rfl

/-- C8. `isSupportedDType` returns true exactly for fixed-width packed
numeric basic types and (possibly nested) packed arrays of such types,
after skipping type references, and false for every other type; and for
supported nodes `dtypeFor` is determined only by the node's total bit
width. -/
theorem isSupportedDType_dtypeFor_spec :
    (∀ t : AstNodeDType, t.isSupportedDType = true ↔ SupportedSpec t) ∧
    (∀ n m : AstNode, n.dtypep.isSupportedDType = true →
      m.dtypep.isSupportedDType = true → n.width = m.width → dtypeFor n = dtypeFor m) := by
  constructor
  · intro t
    induction t with
    | basicDType kw w =>
      constructor
      · intro h; exact .basic h
      · intro h; cases h; assumption
    | packArrayDType sub n ih =>
      simp only [AstNodeDType.isSupportedDType]
      constructor
      · intro h; exact .pack (ih.mp h)
      · intro h; cases h with | pack hs => exact ih.mpr hs
    | refDType sub ih =>
      simp only [AstNodeDType.isSupportedDType]
      constructor
      · intro h; exact .ref (ih.mp h)
      · intro h; cases h with | ref hs => exact ih.mpr hs
    | unpackArrayDType sub n ih =>
      simp only [AstNodeDType.isSupportedDType]
      constructor
      · intro h; cases h
      · intro h; cases h
    | structDType =>
      simp only [AstNodeDType.isSupportedDType]
      constructor
      · intro h; cases h
      · intro h; cases h
  · intro n m _ _ h
    simp [dtypeFor, dtypeForWidth, h]

/-- C8 witness: a supported basic `int` node and a supported packed-array
node of the same total width get the same canonical type. -/
theorem isSupportedDType_dtypeFor_spec_witness :
    dtypeFor (AstNode.mk (.basicDType .int 8) 8) =
      dtypeFor (AstNode.mk (.packArrayDType (.basicDType .bit 1) 8) 8) :=
  isSupportedDType_dtypeFor_spec.2
    (AstNode.mk (.basicDType .int 8) 8)
    (AstNode.mk (.packArrayDType (.basicDType .bit 1) 8) 8)
    (by decide) (by decide) rfl

theorem EPath.trans {es : List (Nat × Nat)} {u v w : Nat}
    (h1 : EPath es u v) (h2 : EPath es v w) : EPath es u w := by
  induction h1 with
  | single hmem => exact EPath.cons hmem h2
  | cons hmem _ ih => exact EPath.cons hmem (ih h2)

theorem isChain_tail (es : List (Nat × Nat)) :
    ∀ (a : Nat) (L : List Nat), isChain es (a :: L) → isChain es L
  | _, [], _ => trivial
  | _, _ :: _, hc => hc.2

theorem chain_head_path (es : List (Nat × Nat)) :
    ∀ (L : List Nat) (a : Nat), isChain es (a :: L) →
      ∀ (j : Nat) (hj : j < L.length), EPath es a (L.get ⟨j, hj⟩)
  | [], _, _, _, hj => absurd hj (by simp)
  | _ :: _, _, hc, 0, _ => EPath.single hc.1
  | b :: rest, _, hc, j + 1, hj =>
    EPath.cons hc.1 (chain_head_path es rest b hc.2 j (by simpa using hj))

theorem chain_path (es : List (Nat × Nat)) :
    ∀ (L : List Nat), isChain es L → ∀ (i j : Nat) (hij : i < j) (hj : j < L.length),
      EPath es (L.get ⟨i, lt_trans hij hj⟩) (L.get ⟨j, hj⟩)
  | [], _, _, _, _, hj => absurd hj (by simp)
  | a :: rest, hc, 0, j, hij, hj => by
    obtain ⟨k, rfl⟩ : ∃ k, j = k + 1 := ⟨j - 1, by omega⟩
    exact chain_head_path es rest a hc k (by simpa using hj)
  | a :: rest, hc, i + 1, j, hij, hj => by
    obtain ⟨k, rfl⟩ : ∃ k, j = k + 1 := ⟨j - 1, by omega⟩
    exact chain_path es rest (isChain_tail es a rest hc) i k (by omega) (by simpa using hj)

theorem exists_long_chain (es : List (Nat × Nat)) (S : List Nat)
    (hpred : ∀ v ∈ S, ∃ u ∈ S, (u, v) ∈ es) (v0 : Nat) (hv0 : v0 ∈ S) :
    ∀ n : Nat, ∃ L : List Nat, L.length = n + 1 ∧ (∀ x ∈ L, x ∈ S) ∧ isChain es L := by
  intro n
  induction n with
  | zero => exact ⟨[v0], rfl, by simpa using hv0, trivial⟩
  | succ n ih =>
    obtain ⟨L, hlen, hmem, hchain⟩ := ih
    match L, hlen, hmem, hchain with
    | a :: rest, hlen, hmem, hchain =>
      have ha : a ∈ S := hmem a (by simp)
      obtain ⟨u, hu, hedge⟩ := hpred a ha
      refine ⟨u :: a :: rest, by simpa using hlen, ?_, hedge, hchain⟩
      intro x hx
      rcases List.mem_cons.mp hx with rfl | hx'
      · exact hu
      · exact hmem x hx'

theorem not_nodup_of_long (L S : List Nat) (hsub : ∀ x ∈ L, x ∈ S)
    (hlen : S.dedup.length < L.length) : ¬ L.Nodup := by
  intro hnd
  have hsub' : L ⊆ S.dedup := fun x hx => List.mem_dedup.mpr (hsub x hx)
  have := (List.subperm_of_subset hnd hsub').length_le
  omega

theorem exists_cycle_of_stuck (es : List (Nat × Nat)) (S : List Nat) (hne : S ≠ [])
    (hpred : ∀ v ∈ S, ∃ u ∈ S, (u, v) ∈ es) : ∃ w : Nat, EPath es w w := by
  obtain ⟨v0, hv0⟩ : ∃ v, v ∈ S := by
    cases S with
    | nil => exact absurd rfl hne
    | cons a t => exact ⟨a, by simp⟩
  obtain ⟨L, hlen, hmem, hchain⟩ := exists_long_chain es S hpred v0 hv0 S.dedup.length
  have hnd : ¬ L.Nodup := not_nodup_of_long L S hmem (by omega)
  rw [List.nodup_iff_injective_get] at hnd
  rw [Function.not_injective_iff] at hnd
  obtain ⟨a, b, hab, hne'⟩ := hnd
  have hvalne : (a : Fin L.length).val ≠ b.val := fun h => hne' (Fin.ext h)
  rcases Nat.lt_or_ge a.val b.val with h | h
  · refine ⟨L.get a, ?_⟩
    have hp := chain_path es L hchain a.val b.val h b.isLt
    have ea : (⟨a.val, lt_trans h b.isLt⟩ : Fin L.length) = a := Fin.ext rfl
    have eb : (⟨b.val, b.isLt⟩ : Fin L.length) = b := Fin.ext rfl
    rw [ea, eb, ← hab] at hp
    exact hp
  · have h' : b.val < a.val := by omega
    refine ⟨L.get b, ?_⟩
    have hp := chain_path es L hchain b.val a.val h' a.isLt
    have eb : (⟨b.val, lt_trans h' a.isLt⟩ : Fin L.length) = b := Fin.ext rfl
    have ea : (⟨a.val, a.isLt⟩ : Fin L.length) = a := Fin.ext rfl
    rw [eb, ea, hab] at hp
    exact hp

theorem topoAux_perm (es : List (Nat × Nat)) (fuel : Nat) :
    ∀ (rem ord : List Nat), topoAux es fuel rem = some ord → rem.Perm ord := by
  induction fuel with
  | zero =>
    intro rem ord h
    simp only [topoAux] at h
    split at h
    · next he =>
      cases h
      rw [List.isEmpty_iff.mp he]
    · cases h
  | succ fuel ih =>
    intro rem ord h
    simp only [topoAux] at h
    split at h
    · next he =>
      cases h
      rw [List.isEmpty_iff.mp he]
    · next he =>
      split at h
      · cases h
      · next v hfind =>
        cases hrec : topoAux es fuel (rem.erase v) with
        | none => rw [hrec] at h; cases h
        | some ord2 =>
          rw [hrec] at h
          simp only [Option.map_some', Option.some.injEq] at h
          subst h
          have hv : v ∈ rem := List.mem_of_find?_eq_some hfind
          exact (List.perm_cons_erase hv).trans ((ih _ _ hrec).cons v)

theorem topoAux_sorts (es : List (Nat × Nat)) (fuel : Nat) :
    ∀ (rem ord : List Nat), topoAux es fuel rem = some ord →
      ∀ u v : Nat, (u, v) ∈ es → u ∈ rem → v ∈ rem →
        ord.indexOf u < ord.indexOf v := by
  induction fuel with
  | zero =>
    intro rem ord h u v he hu hv
    simp only [topoAux] at h
    split at h
    · next hemp => rw [List.isEmpty_iff.mp hemp] at hu; cases hu
    · cases h
  | succ fuel ih =>
    intro rem ord h u v he hu hv
    simp only [topoAux] at h
    split at h
    · next hemp => rw [List.isEmpty_iff.mp hemp] at hu; cases hu
    · next hemp =>
      split at h
      · cases h
      · next w hfind =>
        cases hrec : topoAux es fuel (rem.erase w) with
        | none => rw [hrec] at h; cases h
        | some ord2 =>
          rw [hrec] at h
          simp only [Option.map_some', Option.some.injEq] at h
          subst h
          have hready : ready es rem w = true := List.find?_some hfind
          have hvw : v ≠ w := by
            rintro rfl
            have hthis := List.all_eq_true.mp hready (u, v) he
            simp only [bne_self_eq_false, Bool.false_or] at hthis
            simp only [List.contains, List.elem_eq_mem, Bool.not_eq_true',
              decide_eq_false_iff_not] at hthis
            exact hthis hu
          by_cases huw : u = w
          · subst huw
            rw [List.indexOf_cons_self]
            rw [List.indexOf_cons_ne _ (fun h' => hvw h'.symm)]
            exact Nat.succ_pos _
          · have hu' : u ∈ rem.erase w := (List.mem_erase_of_ne huw).mpr hu
            have hv' : v ∈ rem.erase w := (List.mem_erase_of_ne hvw).mpr hv
            have := ih _ _ hrec u v he hu' hv'
            rw [List.indexOf_cons_ne _ (fun h' => huw h'.symm)]
            rw [List.indexOf_cons_ne _ (fun h' => hvw h'.symm)]
            omega

theorem topoAux_none_cyclic (es : List (Nat × Nat)) (fuel : Nat) :
    ∀ rem : List Nat, rem.length ≤ fuel → topoAux es fuel rem = none →
      ∃ w : Nat, EPath es w w := by
  induction fuel with
  | zero =>
    intro rem hlen h
    have hrem : rem = [] := List.length_eq_zero.mp (Nat.le_zero.mp hlen)
    subst hrem
    simp only [topoAux, List.isEmpty_nil, if_true] at h
    cases h
  | succ fuel ih =>
    intro rem hlen h
    simp only [topoAux] at h
    split at h
    · cases h
    · next hemp =>
      have hne : rem ≠ [] := by
        intro hrem
        rw [hrem] at hemp
        simp at hemp
      split at h
      · next hfind =>
        apply exists_cycle_of_stuck es rem hne
        intro v hv
        have hnr : ¬ (ready es rem v = true) := List.find?_eq_none.mp hfind v hv
        have hnr2 : ready es rem v = false := by
          cases hx : ready es rem v
          · rfl
          · exact absurd hx hnr
        unfold ready at hnr2
        rw [List.all_eq_false] at hnr2
        obtain ⟨e, hemem, hbad⟩ := hnr2
        have hb : (e.2 != v || !(rem.contains e.1)) = false := by
          cases hx : (e.2 != v || !(rem.contains e.1))
          · rfl
          · exact absurd hx hbad
        simp only [Bool.or_eq_false_iff] at hb
        obtain ⟨hb1, hb2⟩ := hb
        have hsink : e.2 = v := by simpa using hb1
        have hsrc : e.1 ∈ rem := by
          simp only [Bool.not_eq_false'] at hb2
          simpa [List.contains] using hb2
        refine ⟨e.1, hsrc, ?_⟩
        have heq : e = (e.1, v) := by
          rcases e with ⟨e1, e2⟩
          simp only [Prod.mk.injEq, true_and]
          simpa using hsink
        rw [← heq]
        exact hemem
      · next v hfind =>
        cases hrec : topoAux es fuel (rem.erase v) with
        | some ord2 => rw [hrec] at h; cases h
        | none =>
          apply ih (rem.erase v) _ hrec
          have hv : v ∈ rem := List.mem_of_find?_eq_some hfind
          have hlen2 := List.length_erase_of_mem hv
          have hpos : 0 < rem.length := List.length_pos.mpr hne
          omega

theorem topoAux_some_acyclic (g : TGraph) (hwf : g.WF) (ord : List Nat)
    (h : topoAux g.edges g.vertices.length g.vertices = some ord) : g.Acyclic := by
  intro v hpath
  have key : ∀ a b : Nat, EPath g.edges a b → ord.indexOf a < ord.indexOf b := by
    intro a b hp
    induction hp with
    | single hmem =>
      exact topoAux_sorts g.edges _ _ _ h _ _ hmem
        ((hwf.2 _ hmem).1) ((hwf.2 _ hmem).2)
    | cons hmem _ ih =>
      exact lt_trans
        (topoAux_sorts g.edges _ _ _ h _ _ hmem ((hwf.2 _ hmem).1) ((hwf.2 _ hmem).2)) ih
  exact lt_irrefl _ (key v v hpath)

theorem indexOf_reverse_eq (l : List Nat) :
    l.Nodup → ∀ a : Nat, a ∈ l → l.reverse.indexOf a = l.length - 1 - l.indexOf a := by
  induction l with
  | nil => intro _ a ha; cases ha
  | cons x t ih =>
    intro hnd a ha
    rw [List.reverse_cons]
    by_cases hax : a = x
    · subst hax
      have hat : a ∉ t := (List.nodup_cons.mp hnd).1
      have hat' : a ∉ t.reverse := by simpa using hat
      rw [List.indexOf_append_of_not_mem hat', List.indexOf_cons_self]
      simp
    · have hat : a ∈ t := by
        rcases List.mem_cons.mp ha with h | h
        · exact absurd h hax
        · exact h
      have hnd' : t.Nodup := (List.nodup_cons.mp hnd).2
      have har : a ∈ t.reverse := by simpa using hat
      rw [List.indexOf_append_of_mem har, ih hnd' a hat,
        List.indexOf_cons_ne _ (fun h => hax h.symm)]
      have hlt : t.indexOf a < t.length := List.indexOf_lt_length.mpr hat
      simp only [List.length_cons]
      omega

theorem indexOf_reverse_lt (l : List Nat) (hnd : l.Nodup) (a b : Nat)
    (ha : a ∈ l) (hb : b ∈ l) (hlt : l.indexOf a < l.indexOf b) :
    l.reverse.indexOf b < l.reverse.indexOf a := by
  rw [indexOf_reverse_eq l hnd a ha, indexOf_reverse_eq l hnd b hb]
  have h1 : l.indexOf a < l.length := List.indexOf_lt_length.mpr ha
  have h2 : l.indexOf b < l.length := List.indexOf_lt_length.mpr hb
  omega

/-- C2. `sortTopologically` on an acyclic well-formed graph returns true
and orders the vertex list so that for every edge the source precedes the
sink (follows it when `reverse` is set); on a cyclic graph it returns false
and leaves the graph — in particular its vertex order — exactly as it was. -/
theorem sortTopologically_spec (g : TGraph) (reverse : Bool) (hwf : g.WF) :
    (g.Acyclic →
      (g.sortTopologically reverse).1 = true ∧
      ∀ e ∈ g.edges,
        if reverse then
          (g.sortTopologically reverse).2.vertices.indexOf e.2 <
            (g.sortTopologically reverse).2.vertices.indexOf e.1
        else
          (g.sortTopologically reverse).2.vertices.indexOf e.1 <
            (g.sortTopologically reverse).2.vertices.indexOf e.2) ∧
    (¬ g.Acyclic → g.sortTopologically reverse = (false, g)) := by
  constructor
  · intro hacyc
    cases hT : topoAux g.edges g.vertices.length g.vertices with
    | none =>
      obtain ⟨w, hw⟩ := topoAux_none_cyclic g.edges g.vertices.length g.vertices le_rfl hT
      exact absurd hw (hacyc w)
    | some ord =>
      have hsort : g.sortTopologically reverse =
          (true, TGraph.mk (if reverse then ord.reverse else ord) g.edges) := by
        unfold TGraph.sortTopologically
        rw [hT]
      rw [hsort]
      refine ⟨rfl, ?_⟩
      intro e he
      have hperm := topoAux_perm g.edges g.vertices.length g.vertices ord hT
      have hu : e.1 ∈ g.vertices := (hwf.2 e he).1
      have hv : e.2 ∈ g.vertices := (hwf.2 e he).2
      have hlt : ord.indexOf e.1 < ord.indexOf e.2 :=
        topoAux_sorts g.edges g.vertices.length g.vertices ord hT e.1 e.2
          (by simpa using he) hu hv
      have hnd : ord.Nodup := hperm.nodup hwf.1
      have hu2 : e.1 ∈ ord := hperm.mem_iff.mp hu
      have hv2 : e.2 ∈ ord := hperm.mem_iff.mp hv
      cases reverse with
      | false => simpa using hlt
      | true => simpa using indexOf_reverse_lt ord hnd e.1 e.2 hu2 hv2 hlt
  · intro hcyc
    cases hT : topoAux g.edges g.vertices.length g.vertices with
    | some ord => exact absurd (topoAux_some_acyclic g hwf ord hT) hcyc
    | none =>
      unfold TGraph.sortTopologically
      rw [hT]

/-- C2 witness: the spec applied at a concrete well-formed three-vertex
graph listed in reversed order with edges 0→1→2. -/
theorem sortTopologically_spec_witness :
    ((TGraph.mk [2, 1, 0] [(0, 1), (1, 2)]).Acyclic →
      ((TGraph.mk [2, 1, 0] [(0, 1), (1, 2)]).sortTopologically false).1 = true ∧
      ∀ e ∈ (TGraph.mk [2, 1, 0] [(0, 1), (1, 2)]).edges,
        if false then
          ((TGraph.mk [2, 1, 0] [(0, 1), (1, 2)]).sortTopologically false).2.vertices.indexOf e.2 <
            ((TGraph.mk [2, 1, 0] [(0, 1), (1, 2)]).sortTopologically false).2.vertices.indexOf e.1
        else
          ((TGraph.mk [2, 1, 0] [(0, 1), (1, 2)]).sortTopologically false).2.vertices.indexOf e.1 <
            ((TGraph.mk [2, 1, 0] [(0, 1), (1, 2)]).sortTopologically false).2.vertices.indexOf e.2) ∧
    (¬ (TGraph.mk [2, 1, 0] [(0, 1), (1, 2)]).Acyclic →
      (TGraph.mk [2, 1, 0] [(0, 1), (1, 2)]).sortTopologically false =
        (false, TGraph.mk [2, 1, 0] [(0, 1), (1, 2)])) :=
  sortTopologically_spec (TGraph.mk [2, 1, 0] [(0, 1), (1, 2)]) false
    ⟨by decide, by decide⟩

theorem adj_symm (es : List (Nat × Nat)) (u v : Nat) : adj es u v = adj es v u := by
  unfold adj
  rw [Bool.eq_iff_iff]
  simp only [List.any_eq_true, Bool.or_eq_true, Bool.and_eq_true, beq_iff_eq]
  constructor <;> (rintro ⟨e, he, h⟩; exact ⟨e, he, h.symm⟩)

theorem adj_mem_right (es : List (Nat × Nat)) (vs : List Nat)
    (hwfe : ∀ e ∈ es, e.1 ∈ vs ∧ e.2 ∈ vs) (u v : Nat) (h : adj es u v = true) :
    v ∈ vs := by
  unfold adj at h
  simp only [List.any_eq_true, Bool.or_eq_true, Bool.and_eq_true, beq_iff_eq] at h
  obtain ⟨e, he, h⟩ := h
  rcases h with ⟨_, h2⟩ | ⟨h1, _⟩
  · exact h2 ▸ (hwfe e he).2
  · exact h1 ▸ (hwfe e he).1

theorem Conn.trans2 {es : List (Nat × Nat)} {u w v : Nat}
    (h1 : Conn es u w) (h2 : Conn es w v) : Conn es u v := by
  induction h2 with
  | refl => exact h1
  | tail _ hadj ih => exact Conn.tail ih hadj

theorem Conn.symm2 {es : List (Nat × Nat)} {u v : Nat} (h : Conn es u v) :
    Conn es v u := by
  induction h with
  | refl => exact Conn.refl _
  | tail _ hadj ih =>
    refine Conn.trans2 ?_ ih
    refine Conn.tail (Conn.refl _) ?_
    rw [adj_symm]
    assumption

theorem subset_grow (es : List (Nat × Nat)) (vs comp : List Nat) :
    ∀ x ∈ comp, x ∈ grow es vs comp := by
  intro x hx
  exact List.mem_append_left _ hx

theorem subset_closeComp (es : List (Nat × Nat)) (vs : List Nat) :
    ∀ (n : Nat) (comp : List Nat), ∀ x ∈ comp, x ∈ closeComp es vs n comp := by
  intro n
  induction n with
  | zero => intro comp x hx; exact hx
  | succ n ih =>
    intro comp x hx
    exact ih (grow es vs comp) x (subset_grow es vs comp x hx)

theorem mem_growNew (es : List (Nat × Nat)) (vs comp : List Nat) (x : Nat)
    (hx : x ∈ growNew es vs comp) :
    x ∈ vs ∧ x ∉ comp ∧ ∃ u ∈ comp, adj es u x = true := by
  unfold growNew at hx
  rw [List.mem_filter] at hx
  obtain ⟨hxvs, hcond⟩ := hx
  simp only [Bool.and_eq_true, Bool.not_eq_true', List.any_eq_true] at hcond
  obtain ⟨hnc, u, hu, hadj⟩ := hcond
  refine ⟨hxvs, ?_, u, hu, hadj⟩
  intro hxc
  have : comp.contains x = true := by
    simp [List.contains]
    exact hxc
  rw [this] at hnc
  cases hnc

theorem closeComp_subset (es : List (Nat × Nat)) (vs : List Nat) :
    ∀ (n : Nat) (comp : List Nat), (∀ x ∈ comp, x ∈ vs) →
      ∀ x ∈ closeComp es vs n comp, x ∈ vs := by
  intro n
  induction n with
  | zero => intro comp hsub x hx; exact hsub x hx
  | succ n ih =>
    intro comp hsub x hx
    refine ih (grow es vs comp) ?_ x hx
    intro y hy
    rcases List.mem_append.mp hy with hy1 | hy2
    · exact hsub y hy1
    · exact (mem_growNew es vs comp y hy2).1

theorem grow_nodup (es : List (Nat × Nat)) (vs comp : List Nat)
    (hvs : vs.Nodup) (hcomp : comp.Nodup) : (grow es vs comp).Nodup := by
  unfold grow
  rw [List.nodup_append]
  refine ⟨hcomp, hvs.filter _, ?_⟩
  intro x hx hx2
  exact (mem_growNew es vs comp x hx2).2.1 hx

theorem closeComp_nodup (es : List (Nat × Nat)) (vs : List Nat) (hvs : vs.Nodup) :
    ∀ (n : Nat) (comp : List Nat), comp.Nodup → (closeComp es vs n comp).Nodup := by
  intro n
  induction n with
  | zero => intro comp h; exact h
  | succ n ih => intro comp h; exact ih (grow es vs comp) (grow_nodup es vs comp hvs h)

theorem closeComp_sound (es : List (Nat × Nat)) (vs : List Nat) (v : Nat) :
    ∀ (n : Nat) (comp : List Nat), (∀ x ∈ comp, Conn es v x) →
      ∀ x ∈ closeComp es vs n comp, Conn es v x := by
  intro n
  induction n with
  | zero => intro comp hsnd x hx; exact hsnd x hx
  | succ n ih =>
    intro comp hsnd x hx
    refine ih (grow es vs comp) ?_ x hx
    intro y hy
    rcases List.mem_append.mp hy with hy1 | hy2
    · exact hsnd y hy1
    · obtain ⟨_, _, u, hu, hadj⟩ := mem_growNew es vs comp y hy2
      exact Conn.tail (hsnd u hu) hadj

theorem closeComp_of_stable (es : List (Nat × Nat)) (vs : List Nat) :
    ∀ (n : Nat) (comp : List Nat), Stable es vs comp → closeComp es vs n comp = comp := by
  intro n
  induction n with
  | zero => intro comp _; rfl
  | succ n ih =>
    intro comp hs
    have hg : grow es vs comp = comp := by
      unfold grow
      rw [hs, List.append_nil]
    show closeComp es vs n (grow es vs comp) = comp
    rw [hg]
    exact ih comp hs

theorem closeComp_stable (es : List (Nat × Nat)) (vs : List Nat) (hvs : vs.Nodup) :
    ∀ (n : Nat) (comp : List Nat), comp.Nodup → (∀ x ∈ comp, x ∈ vs) →
      vs.length + 1 ≤ n + comp.length →
      Stable es vs (closeComp es vs n comp) := by
  intro n
  induction n with
  | zero =>
    intro comp hnd hsub hfuel
    have : comp.length ≤ vs.length :=
      (List.subperm_of_subset hnd (fun x hx => hsub x hx)).length_le
    omega
  | succ n ih =>
    intro comp hnd hsub hfuel
    by_cases hs : Stable es vs comp
    · rw [closeComp_of_stable es vs (n + 1) comp hs]
      exact hs
    · show Stable es vs (closeComp es vs n (grow es vs comp))
      have hglen : comp.length + 1 ≤ (grow es vs comp).length := by
        unfold grow
        rw [List.length_append]
        have : growNew es vs comp ≠ [] := hs
        have : 0 < (growNew es vs comp).length := List.length_pos.mpr this
        omega
      refine ih (grow es vs comp) (grow_nodup es vs comp hvs hnd) ?_ (by omega)
      intro y hy
      rcases List.mem_append.mp hy with hy1 | hy2
      · exact hsub y hy1
      · exact (mem_growNew es vs comp y hy2).1

theorem componentOf_stable (es : List (Nat × Nat)) (vs : List Nat) (hvs : vs.Nodup)
    (v : Nat) (hv : v ∈ vs) : Stable es vs (componentOf es vs v) := by
  unfold componentOf
  refine closeComp_stable es vs hvs vs.length [v] (by simp) ?_ (by simp)
  intro x hx
  rw [List.mem_singleton] at hx
  subst hx
  exact hv

theorem mem_componentOf_self (es : List (Nat × Nat)) (vs : List Nat) (v : Nat) :
    v ∈ componentOf es vs v :=
  subset_closeComp es vs vs.length [v] v (by simp)

theorem componentOf_sound (es : List (Nat × Nat)) (vs : List Nat) (v : Nat) :
    ∀ x ∈ componentOf es vs v, Conn es v x := by
  refine closeComp_sound es vs v vs.length [v] ?_
  intro x hx
  rw [List.mem_singleton] at hx
  subst hx
  exact Conn.refl _

theorem componentOf_subset (es : List (Nat × Nat)) (vs : List Nat) (v : Nat)
    (hv : v ∈ vs) : ∀ x ∈ componentOf es vs v, x ∈ vs := by
  refine closeComp_subset es vs vs.length [v] ?_
  intro x hx
  rw [List.mem_singleton] at hx
  subst hx
  exact hv

theorem componentOf_nodup (es : List (Nat × Nat)) (vs : List Nat) (hvs : vs.Nodup)
    (v : Nat) : (componentOf es vs v).Nodup :=
  closeComp_nodup es vs hvs vs.length [v] (by simp)

theorem stable_closed (es : List (Nat × Nat)) (vs comp : List Nat)
    (hst : Stable es vs comp) :
    ∀ x : Nat, x ∈ vs → (∃ u ∈ comp, adj es u x = true) → x ∈ comp := by
  intro x hxvs hex
  by_contra hxc
  have hmem : x ∈ growNew es vs comp := by
    unfold growNew
    rw [List.mem_filter]
    refine ⟨hxvs, ?_⟩
    simp only [Bool.and_eq_true, Bool.not_eq_true', List.any_eq_true]
    constructor
    · cases hcx : comp.contains x with
      | false => rfl
      | true =>
        exfalso
        apply hxc
        simpa [List.contains] using hcx
    · exact hex
  rw [hst] at hmem
  cases hmem

theorem componentOf_complete (es : List (Nat × Nat)) (vs : List Nat) (hvs : vs.Nodup)
    (hwfe : ∀ e ∈ es, e.1 ∈ vs ∧ e.2 ∈ vs) (v : Nat) (hv : v ∈ vs) :
    ∀ u : Nat, Conn es v u → u ∈ componentOf es vs v := by
  have key : ∀ a b : Nat, Conn es a b → a = v → b ∈ componentOf es vs v := by
    intro a b h
    induction h with
    | refl =>
      intro h2
      subst h2
      exact mem_componentOf_self es vs _
    | tail _ hadj ih =>
      intro h2
      refine stable_closed es vs _ (componentOf_stable es vs hvs v hv) _ ?_
        ⟨_, ih h2, hadj⟩
      exact adj_mem_right es vs hwfe _ _ hadj
  intro u hconn
  exact key v u hconn rfl

theorem componentOf_edge_closed (es : List (Nat × Nat)) (vs : List Nat)
    (hvs : vs.Nodup) (hwfe : ∀ e ∈ es, e.1 ∈ vs ∧ e.2 ∈ vs) (v : Nat) (hv : v ∈ vs) :
    ∀ e ∈ es, (e.1 ∈ componentOf es vs v ↔ e.2 ∈ componentOf es vs v) := by
  intro e he
  have hadj : adj es e.1 e.2 = true := by
    unfold adj
    rw [List.any_eq_true]
    exact ⟨e, he, by simp⟩
  constructor
  · intro h1
    exact componentOf_complete es vs hvs hwfe v hv e.2
      (Conn.tail (componentOf_sound es vs v e.1 h1) hadj)
  · intro h2
    have hadj2 : adj es e.2 e.1 = true := by rw [adj_symm]; exact hadj
    exact componentOf_complete es vs hvs hwfe v hv e.1
      (Conn.tail (componentOf_sound es vs v e.2 h2) hadj2)

theorem splitAux_spec (es : List (Nat × Nat)) (vs : List Nat)
    (hvs : vs.Nodup) (hwfe : ∀ e ∈ es, e.1 ∈ vs ∧ e.2 ∈ vs) :
    ∀ (pending assigned : List Nat),
      (∀ x ∈ pending, x ∈ vs) →
      (∀ u ∈ assigned, ∀ w : Nat, w ∈ vs → Conn es u w → w ∈ assigned) →
      (∀ c ∈ splitAux es vs pending assigned, ∃ v, v ∈ vs ∧ c = componentOf es vs v) ∧
      (∀ x ∈ pending, x ∈ assigned ∨ x ∈ (splitAux es vs pending assigned).flatten) ∧
      (splitAux es vs pending assigned).flatten.Nodup ∧
      (∀ x ∈ (splitAux es vs pending assigned).flatten, x ∉ assigned ∧ x ∈ vs) := by
  intro pending
  induction pending with
  | nil =>
    intro assigned _ _
    refine ⟨?_, ?_, ?_, ?_⟩ <;> simp [splitAux]
  | cons v rest ih =>
    intro assigned hpend hclosed
    by_cases hva : assigned.contains v = true
    · have hsplit : splitAux es vs (v :: rest) assigned = splitAux es vs rest assigned := by
        show (if assigned.contains v = true then splitAux es vs rest assigned
          else componentOf es vs v ::
            splitAux es vs rest (assigned ++ componentOf es vs v)) =
          splitAux es vs rest assigned
        rw [if_pos hva]
      have hrest := ih assigned (fun x hx => hpend x (List.mem_cons_of_mem v hx)) hclosed
      rw [hsplit]
      refine ⟨hrest.1, ?_, hrest.2.2.1, hrest.2.2.2⟩
      intro x hx
      rcases List.mem_cons.mp hx with rfl | hx2
      · left
        simpa [List.contains] using hva
      · exact hrest.2.1 x hx2
    · have hvns : v ∉ assigned := by
        intro hmem
        apply hva
        simpa [List.contains] using hmem
      have hvvs : v ∈ vs := hpend v (by simp)
      have hsplit : splitAux es vs (v :: rest) assigned =
          componentOf es vs v :: splitAux es vs rest (assigned ++ componentOf es vs v) := by
        show (if assigned.contains v = true then splitAux es vs rest assigned
          else componentOf es vs v ::
            splitAux es vs rest (assigned ++ componentOf es vs v)) =
          componentOf es vs v :: splitAux es vs rest (assigned ++ componentOf es vs v)
        rw [if_neg hva]
      have hclosed2 : ∀ u ∈ assigned ++ componentOf es vs v, ∀ w : Nat, w ∈ vs →
          Conn es u w → w ∈ assigned ++ componentOf es vs v := by
        intro u hu w hwvs hconn
        rcases List.mem_append.mp hu with hu1 | hu2
        · exact List.mem_append_left _ (hclosed u hu1 w hwvs hconn)
        · have hvu : Conn es v u := componentOf_sound es vs v u hu2
          have hvw : Conn es v w := Conn.trans2 hvu hconn
          exact List.mem_append_right _ (componentOf_complete es vs hvs hwfe v hvvs w hvw)
      have hCassigned : ∀ x ∈ componentOf es vs v, x ∉ assigned := by
        intro x hx hxa
        have hxv : Conn es x v := Conn.symm2 (componentOf_sound es vs v x hx)
        exact hvns (hclosed x hxa v hvvs hxv)
      have hrest := ih (assigned ++ componentOf es vs v)
        (fun x hx => hpend x (List.mem_cons_of_mem v hx)) hclosed2
      rw [hsplit]
      refine ⟨?_, ?_, ?_, ?_⟩
      · intro c hc
        rcases List.mem_cons.mp hc with rfl | hc2
        · exact ⟨v, hvvs, rfl⟩
        · exact hrest.1 c hc2
      · intro x hx
        rw [List.flatten_cons]
        rcases List.mem_cons.mp hx with rfl | hx2
        · right
          exact List.mem_append_left _ (mem_componentOf_self es vs x)
        · rcases hrest.2.1 x hx2 with h1 | h2
          · rcases List.mem_append.mp h1 with ha | hc
            · left
              exact ha
            · right
              exact List.mem_append_left _ hc
          · right
            exact List.mem_append_right _ h2
      · rw [List.flatten_cons, List.nodup_append]
        refine ⟨componentOf_nodup es vs hvs v, hrest.2.2.1, ?_⟩
        intro x hxC hxJ
        exact (hrest.2.2.2 x hxJ).1 (List.mem_append_right _ hxC)
      · intro x hx
        rw [List.flatten_cons] at hx
        rcases List.mem_append.mp hx with hx1 | hx2
        · exact ⟨hCassigned x hx1, componentOf_subset es vs v hvvs x hx1⟩
        · have hprops := hrest.2.2.2 x hx2
          exact ⟨fun hxa => hprops.1 (List.mem_append_left _ hxa), hprops.2⟩

theorem join_nodup_unique (CL : List (List Nat)) :
    CL.flatten.Nodup →
    ∀ c1 ∈ CL, ∀ c2 ∈ CL, ∀ x : Nat, x ∈ c1 → x ∈ c2 → c1 = c2 := by
  induction CL with
  | nil =>
    intro _ c1 hc1
    cases hc1
  | cons c t ih =>
    intro hnd c1 hc1 c2 hc2 x hx1 hx2
    rw [List.flatten_cons, List.nodup_append] at hnd
    rcases List.mem_cons.mp hc1 with rfl | h1 <;> rcases List.mem_cons.mp hc2 with rfl | h2
    · rfl
    · exact absurd (List.mem_flatten.mpr ⟨c2, h2, hx2⟩) (hnd.2.2 hx1)
    · exact absurd hx2 (fun hx2' => hnd.2.2 hx2' (List.mem_flatten.mpr ⟨c1, h1, hx1⟩))
    · exact ih hnd.2.1 c1 h1 c2 h2 x hx1 hx2

theorem componentOf_no_edges (vs : List Nat) (v : Nat) :
    componentOf [] vs v = [v] := by
  unfold componentOf
  apply closeComp_of_stable
  unfold Stable growNew
  rw [List.filter_eq_nil_iff]
  intro x _
  simp [adj]

theorem splitAux_no_edges (vs : List Nat) :
    ∀ (pending assigned : List Nat), pending.Nodup →
      (∀ x ∈ pending, x ∉ assigned) →
      splitAux [] vs pending assigned = pending.map (fun v => [v]) := by
  intro pending
  induction pending with
  | nil =>
    intro assigned _ _
    rfl
  | cons v rest ih =>
    intro assigned hnd hnot
    have hvc : ¬ (assigned.contains v = true) := by
      intro h
      exact hnot v (by simp) (by simpa [List.contains] using h)
    show (if assigned.contains v = true then splitAux [] vs rest assigned
      else componentOf [] vs v :: splitAux [] vs rest (assigned ++ componentOf [] vs v)) =
        (v :: rest).map (fun v => [v])
    rw [if_neg hvc, componentOf_no_edges]
    rw [ih (assigned ++ [v]) (List.nodup_cons.mp hnd).2 ?_]
    · rfl
    · intro x hx hmem
      rcases List.mem_append.mp hmem with h1 | h2
      · exact hnot x (List.mem_cons_of_mem v hx) h1
      · rw [List.mem_singleton] at h2
        subst h2
        exact (List.nodup_cons.mp hnd).1 hx

/-- C4. `splitIntoComponents` partitions the graph: the component graphs'
vertex lists concatenate to a permutation of the original vertex list (so
every vertex appears in exactly one component); no edge connects vertices
of two different returned components; the original graph is empty
afterwards; an edgeless graph yields one singleton component per vertex. -/
theorem splitIntoComponents_spec (g : TGraph) (hwf : g.WF) :
    ((g.splitIntoComponents.1.map TGraph.vertices).flatten.Perm g.vertices) ∧
    (∀ c1 ∈ g.splitIntoComponents.1, ∀ c2 ∈ g.splitIntoComponents.1,
      ∀ e ∈ g.edges, e.1 ∈ c1.vertices → e.2 ∈ c2.vertices → c1 = c2) ∧
    g.splitIntoComponents.2 = TGraph.mk [] [] ∧
    (g.edges = [] →
      g.splitIntoComponents.1.map TGraph.vertices = g.vertices.map (fun v => [v])) := by
  obtain ⟨hvs, hwfe⟩ := hwf
  obtain ⟨hcomps, hcover, hjnodup, hjprops⟩ :=
    splitAux_spec g.edges g.vertices hvs hwfe g.vertices []
      (fun x hx => hx) (by intro u hu; cases hu)
  have hmap : g.splitIntoComponents.1.map TGraph.vertices =
      splitAux g.edges g.vertices g.vertices [] := by
    unfold TGraph.splitIntoComponents
    rw [List.map_map]
    show List.map id (splitAux g.edges g.vertices g.vertices []) = _
    exact List.map_id _
  refine ⟨?_, ?_, rfl, ?_⟩
  · rw [hmap]
    apply List.Subperm.antisymm
    · exact List.subperm_of_subset hjnodup (fun x hx => (hjprops x hx).2)
    · refine List.subperm_of_subset hvs ?_
      intro x hx
      rcases hcover x hx with h1 | h2
      · cases h1
      · exact h2
  · intro c1 hc1 c2 hc2 e he h1 h2
    unfold TGraph.splitIntoComponents at hc1 hc2
    obtain ⟨l1, hl1, rfl⟩ := List.mem_map.mp hc1
    obtain ⟨l2, hl2, rfl⟩ := List.mem_map.mp hc2
    obtain ⟨v1, hv1, hl1eq⟩ := hcomps l1 hl1
    have h1v : e.1 ∈ l1 := h1
    have h2v : e.2 ∈ l2 := h2
    have h1c : e.1 ∈ componentOf g.edges g.vertices v1 := hl1eq ▸ h1v
    have h2c : e.2 ∈ componentOf g.edges g.vertices v1 :=
      (componentOf_edge_closed g.edges g.vertices hvs hwfe v1 hv1 e he).mp h1c
    have h2l1 : e.2 ∈ l1 := hl1eq ▸ h2c
    have hll : l1 = l2 := join_nodup_unique _ hjnodup l1 hl1 l2 hl2 e.2 h2l1 h2v
    rw [hll]
  · intro hes
    rw [hmap]
    rw [show g.edges = [] from hes]
    exact splitAux_no_edges g.vertices g.vertices [] hvs (by intro x _ h; cases h)

/-- C4 witness: the spec applied at a concrete well-formed graph with
three vertices and one edge, splitting into two components. -/
theorem splitIntoComponents_spec_witness :
    (((TGraph.mk [0, 1, 2] [(0, 1)]).splitIntoComponents.1.map
        TGraph.vertices).flatten.Perm [0, 1, 2]) ∧
    (∀ c1 ∈ (TGraph.mk [0, 1, 2] [(0, 1)]).splitIntoComponents.1,
      ∀ c2 ∈ (TGraph.mk [0, 1, 2] [(0, 1)]).splitIntoComponents.1,
      ∀ e ∈ (TGraph.mk [0, 1, 2] [(0, 1)]).edges,
        e.1 ∈ c1.vertices → e.2 ∈ c2.vertices → c1 = c2) ∧
    (TGraph.mk [0, 1, 2] [(0, 1)]).splitIntoComponents.2 = TGraph.mk [] [] ∧
    ((TGraph.mk [0, 1, 2] [(0, 1)]).edges = [] →
      (TGraph.mk [0, 1, 2] [(0, 1)]).splitIntoComponents.1.map TGraph.vertices =
        [0, 1, 2].map (fun v => [v])) :=
  splitIntoComponents_spec (TGraph.mk [0, 1, 2] [(0, 1)]) ⟨by decide, by decide⟩

/-- C10. `hasSinks` is true iff `fanout ≥ 1` and `hasMultipleSinks` is true
iff `fanout ≥ 2`, where `fanout` is the length of the sink-edge list. -/
theorem hasSinks_hasMultipleSinks_fanout (v : VertexSinks) :
    (v.hasSinks = true ↔ 1 ≤ v.fanout) ∧
    (v.hasMultipleSinks = true ↔ 2 ≤ v.fanout) := by
  unfold VertexSinks.hasSinks VertexSinks.hasMultipleSinks VertexSinks.fanout
  match v with
  | ⟨[]⟩ => simp
  | ⟨[_]⟩ => simp
  | ⟨_ :: _ :: t⟩ =>
    refine ⟨by simp, ?_⟩
    simp only [List.length_cons]
    constructor
    · intro _; omega
    · intro _; trivial

end V3Dfg
